import Mathlib

/-!
# Shallow embedding of the prediction-market core (market.rs / math_safe.rs)

Machine integers are modelled as `Nat` with explicit range checks mirroring
the Rust `checked_*` operations (`u64` bound `U64_MAX`, `u128` bound
`U128_MAX`).  Fallible Rust functions returning `Result<T, u32>` are
modelled as `Except Err T` where `Err` is an inductive of the error kinds
used by the code (the numeric codes live in `error.rs`, which only the
names are visible from here).
-/

namespace PredMarket

/-- Error kinds of `error.rs` (codes are opaque; only identity matters). -/
inductive Err where
  | overflow
  | underflow
  | divisionByZero
  | invalidCalculation
  | invalidBetType
  | invalidBetAmount
  | betTooLarge
  | insufficientBalance
  | liquidityTooHigh
  | invalidMarketTitle
  | invalidMarketTime
  | marketAlreadyResolved
deriving DecidableEq, Repr

deriving instance DecidableEq for Except

/-- `u64::MAX` -/
def U64_MAX : Nat := 2 ^ 64 - 1

/-- `u128::MAX` -/
def U128_MAX : Nat := 2 ^ 128 - 1

/-- `MAX_LIQUIDITY` from `math_safe.rs`. -/
def MAX_LIQUIDITY : Nat := 1000000000000

/-- `MAX_BET_AMOUNT` from `math_safe.rs`. -/
def MAX_BET_AMOUNT : Nat := 100000000

/-- `MIN_LIQUIDITY` from `math_safe.rs`. -/
def MIN_LIQUIDITY : Nat := 1000

/-- `MAX_SHARES` from `math_safe.rs`. -/
def MAX_SHARES : Nat := 1000000000

/-- Modelled from the spec: `PRICE_PRECISION` lives in `config.rs`, which is
not part of the sources here; the spec fixes `PRICE_PRECISION = 1_000_000`. -/
def PRICE_PRECISION : Nat := 1000000

/-- Modelled from the spec: `FEE_BASIS_POINTS` lives in `config.rs`, which is
not part of the sources here; the spec fixes `FEE_BASIS_POINTS = 10_000`. -/
def FEE_BASIS_POINTS : Nat := 10000

/-- Modelled from the spec: `PLATFORM_FEE_RATE` lives in `config.rs`, which is
not part of the sources here; the spec gives 100 (= 1%) and the test suite's
expected fee values (`fee(10_000) = 100`, `fee(1_960) = 20`) pin it to 100. -/
def PLATFORM_FEE_RATE : Nat := 100

/-- `safe_mul` (`u64` checked multiplication). -/
def safe_mul (a b : Nat) : Except Err Nat :=
  if a * b ≤ U64_MAX then .ok (a * b) else .error .overflow

/-- `safe_div` (`u64` division, checked divisor). -/
def safe_div (a b : Nat) : Except Err Nat :=
  if b = 0 then .error .divisionByZero else .ok (a / b)

/-- `safe_sub` (`u64` checked subtraction). -/
def safe_sub (a b : Nat) : Except Err Nat :=
  if b ≤ a then .ok (a - b) else .error .underflow

/-- `safe_add` (`u64` checked addition). -/
def safe_add (a b : Nat) : Except Err Nat :=
  if a + b ≤ U64_MAX then .ok (a + b) else .error .overflow

/-- `u128` checked multiplication (`checked_mul` on `u128`). -/
def chkMul128 (a b : Nat) : Except Err Nat :=
  if a * b ≤ U128_MAX then .ok (a * b) else .error .overflow

/-- `u128` checked addition (`checked_add` on `u128`). -/
def chkAdd128 (a b : Nat) : Except Err Nat :=
  if a + b ≤ U128_MAX then .ok (a + b) else .error .overflow

/-- `u128` checked subtraction (`checked_sub` on `u128`). -/
def chkSub128 (a b : Nat) : Except Err Nat :=
  if b ≤ a then .ok (a - b) else .error .underflow

/-- `safe_mul_high_precision`: multiply in 128 bits, fail if above `u64`. -/
def safe_mul_high_precision (a b : Nat) : Except Err Nat := do
  let r ← chkMul128 a b
  if r > U64_MAX then .error .overflow else .ok r

/-- `safe_div_high_precision`: `⌊a·b/c⌋` in 128 bits, fail if above `u64`.
Note the source rejects `b == 0` as well as `c == 0`. -/
def safe_div_high_precision (a b c : Nat) : Except Err Nat := do
  if b = 0 ∨ c = 0 then .error .divisionByZero
  else
    let numerator ← chkMul128 a b
    let r := numerator / c
    if r > U64_MAX then .error .overflow else .ok r

/-- `FP_SCALE = 1e6` fixed point. -/
def FP_SCALE : Nat := 1000000

/-- `fp_mul(a,b) = (a*b)/FP_SCALE` with `u128` checked intermediate. -/
def fp_mul (a b : Nat) : Except Err Nat := do
  let wide ← chkMul128 a b
  .ok (wide / FP_SCALE)

/-- `fp_div(a,b) = (a*FP_SCALE)/b`, checked divisor and intermediate. -/
def fp_div (a b : Nat) : Except Err Nat := do
  if b = 0 then .error .divisionByZero
  else
    let wide ← chkMul128 a FP_SCALE
    .ok (wide / b)

/-- `fp_exp_taylor(x) ≈ 1 + x + x²/2 + x³/6` in fixed point. -/
def fp_exp_taylor (x_fp : Nat) : Except Err Nat := do
  let one := FP_SCALE
  let x1 := x_fp
  let x2 ← fp_mul x_fp x_fp
  let half ← fp_div x2 (2 * FP_SCALE)
  let x3 ← fp_mul x2 x_fp
  let sixth ← fp_div x3 (6 * FP_SCALE)
  let tmp ← chkAdd128 one x1
  let tmp2 ← chkAdd128 tmp half
  let sum ← chkAdd128 tmp2 sixth
  .ok sum

/-- `fp_ln_series(y) ≈ (y-1) - (y-1)²/2 + (y-1)³/3`, defined for `y ≥ 1`. -/
def fp_ln_series (y_fp : Nat) : Except Err Nat := do
  if y_fp < FP_SCALE then .error .invalidCalculation
  else
    let z ← chkSub128 y_fp FP_SCALE
    let z2 ← fp_mul z z
    let z3 ← fp_mul z2 z
    let z2_over_2 ← fp_div z2 (2 * FP_SCALE)
    let z3_over_3 ← fp_div z3 (3 * FP_SCALE)
    let tmp ← chkSub128 z z2_over_2
    let out ← chkAdd128 tmp z3_over_3
    .ok out

/-- `fp_exp_q_over_b`: `exp(q/b)` in fixed point. -/
def fp_exp_q_over_b (q b : Nat) : Except Err Nat := do
  if b = 0 then .error .invalidCalculation
  else
    let qfp ← chkMul128 q FP_SCALE
    fp_exp_taylor (qfp / b)

/-- `lmsr_cost(q_yes, q_no, b) = b · ln(exp(q_yes/b) + exp(q_no/b))`. -/
def lmsr_cost (q_yes q_no b : Nat) : Except Err Nat := do
  let e_yes ← fp_exp_q_over_b q_yes b
  let e_no ← fp_exp_q_over_b q_no b
  let sum_e ← chkAdd128 e_yes e_no
  let ln_sum ← fp_ln_series sum_e
  let result ← chkMul128 b ln_sum
  .ok result

/-- `lmsr_price_yes`: YES price in fixed point. -/
def lmsr_price_yes (q_yes q_no b : Nat) : Except Err Nat := do
  let e_yes ← fp_exp_q_over_b q_yes b
  let e_no ← fp_exp_q_over_b q_no b
  let denom ← chkAdd128 e_yes e_no
  fp_div e_yes denom

/-- `lmsr_price_no`: NO price, the exact complement `FP_SCALE − p_yes`. -/
def lmsr_price_no (q_yes q_no b : Nat) : Except Err Nat := do
  let p_yes ← lmsr_price_yes q_yes q_no b
  chkSub128 FP_SCALE p_yes

/-- `lmsr_buy_yes_quote`: cost to buy `delta_yes` YES shares. -/
def lmsr_buy_yes_quote (q_yes q_no b delta_yes : Nat) : Except Err Nat := do
  let c_before ← lmsr_cost q_yes q_no b
  let qy ← safe_add q_yes delta_yes
  let c_after ← lmsr_cost qy q_no b
  chkSub128 c_after c_before

/-- `lmsr_buy_no_quote`: cost to buy `delta_no` NO shares. -/
def lmsr_buy_no_quote (q_yes q_no b delta_no : Nat) : Except Err Nat := do
  let c_before ← lmsr_cost q_yes q_no b
  let qn ← safe_add q_no delta_no
  let c_after ← lmsr_cost q_yes qn b
  chkSub128 c_after c_before

/-- `lmsr_sell_yes_quote`: payout for selling `s_yes` YES shares. -/
def lmsr_sell_yes_quote (q_yes q_no b s_yes : Nat) : Except Err Nat := do
  if s_yes > q_yes then .error .invalidBetAmount
  else
    let c_before ← lmsr_cost q_yes q_no b
    let c_after ← lmsr_cost (q_yes - s_yes) q_no b
    chkSub128 c_before c_after

/-- `lmsr_sell_no_quote`: payout for selling `s_no` NO shares. -/
def lmsr_sell_no_quote (q_yes q_no b s_no : Nat) : Except Err Nat := do
  if s_no > q_no then .error .invalidBetAmount
  else
    let c_before ← lmsr_cost q_yes q_no b
    let c_after ← lmsr_cost q_yes (q_no - s_no) b
    chkSub128 c_before c_after

/-- `calculate_yes_price_lmsr`: YES price clamped to `u64`. -/
def calculate_yes_price_lmsr (q_yes q_no b : Nat) : Except Err Nat := do
  let p ← lmsr_price_yes q_yes q_no b
  if p > U64_MAX then .error .overflow else .ok p

/-- `calculate_no_price_lmsr`: NO price clamped to `u64`. -/
def calculate_no_price_lmsr (q_yes q_no b : Nat) : Except Err Nat := do
  let p ← lmsr_price_no q_yes q_no b
  if p > U64_MAX then .error .overflow else .ok p

/-- `calculate_fee_safe`: ceiling fee `⌈amount·RATE/BASIS⌉`. -/
def calculate_fee_safe (amount : Nat) : Except Err Nat := do
  if amount > MAX_BET_AMOUNT then .error .betTooLarge
  else
    let numerator ← chkMul128 amount PLATFORM_FEE_RATE
    let rounded ← chkAdd128 numerator (FEE_BASIS_POINTS - 1)
    let r := rounded / FEE_BASIS_POINTS
    if r > U64_MAX then .error .overflow else .ok r

/-- `calculate_net_amount_safe`: amount minus fee. -/
def calculate_net_amount_safe (bet_amount : Nat) : Except Err Nat := do
  let fee ← calculate_fee_safe bet_amount
  safe_sub bet_amount fee

/-- `validate_b`. -/
def validate_b (b : Nat) : Except Err Unit :=
  if b = 0 then .error .invalidCalculation else .ok ()

/-- `validate_bet_amount`. -/
def validate_bet_amount (bet_amount : Nat) : Except Err Unit :=
  if bet_amount = 0 then .error .invalidBetAmount
  else if bet_amount > MAX_BET_AMOUNT then .error .betTooLarge
  else .ok ()

/-- `validate_shares`. -/
def validate_shares (shares : Nat) : Except Err Unit :=
  if shares = 0 then .error .invalidBetAmount
  else if shares > MAX_SHARES then .error .betTooLarge
  else .ok ()

/-- `validate_liquidity`. -/
def validate_liquidity (liquidity : Nat) : Except Err Unit :=
  if liquidity < MIN_LIQUIDITY then .error .invalidCalculation
  else if liquidity > MAX_LIQUIDITY then .error .liquidityTooHigh
  else .ok ()

/-! ## Market state (`market.rs`) -/

/-- The `MarketData` record of `market.rs`.  `u64` fields are `Nat`s. -/
structure MarketData where
  title : List Nat
  start_time : Nat
  end_time : Nat
  resolution_time : Nat
  total_yes_shares : Nat
  total_no_shares : Nat
  b : Nat
  pool_balance : Nat
  total_volume : Nat
  resolved : Bool
  outcome : Option Bool
  total_fees_collected : Nat
deriving DecidableEq, Repr

namespace MarketData

/-- `MarketData::new_with_title_u64_and_liquidity`. -/
def new_with_title_u64_and_liquidity (title : List Nat)
    (start_time end_time resolution_time : Nat)
    (initial_yes_liquidity initial_no_liquidity b : Nat) :
    Except Err MarketData := do
  if title.length > 8 then .error .invalidMarketTitle
  else if start_time ≥ end_time then .error .invalidMarketTime
  else if end_time > resolution_time then .error .invalidMarketTime
  else
    let _ ← validate_liquidity initial_yes_liquidity
    let _ ← validate_liquidity initial_no_liquidity
    let _ ← validate_b b
    .ok { title := title
          start_time := start_time
          end_time := end_time
          resolution_time := resolution_time
          total_yes_shares := initial_yes_liquidity
          total_no_shares := initial_no_liquidity
          b := b
          pool_balance := 0
          total_volume := 0
          resolved := false
          outcome := none
          total_fees_collected := 0 }

/-- `is_active`. -/
def is_active (m : MarketData) (current_time : Nat) : Bool :=
  decide (current_time ≥ m.start_time) && decide (current_time < m.end_time)
    && !m.resolved

/-- `can_resolve`. -/
def can_resolve (m : MarketData) (current_time : Nat) : Bool :=
  decide (current_time ≥ m.resolution_time) && !m.resolved

/-- `get_yes_price`. -/
def get_yes_price (m : MarketData) : Except Err Nat :=
  calculate_yes_price_lmsr m.total_yes_shares m.total_no_shares m.b

/-- `get_no_price`. -/
def get_no_price (m : MarketData) : Except Err Nat :=
  calculate_no_price_lmsr m.total_yes_shares m.total_no_shares m.b

/-- `validate_bet_type`: 1 = YES, 0 = NO, anything else is an error. -/
def validate_bet_type (bet_type : Nat) : Except Err Bool :=
  match bet_type with
  | 0 => .ok false
  | 1 => .ok true
  | _ => .error .invalidBetType

/-- The buy quote used by the solver: YES side or NO side. -/
def buyQuote (q_yes q_no b : Nat) (is_yes : Bool) (d : Nat) : Except Err Nat :=
  if is_yes then lmsr_buy_yes_quote q_yes q_no b d
  else lmsr_buy_no_quote q_yes q_no b d

/-- The binary-search loop of `calculate_shares`, with explicit fuel.
The Rust `while lo < hi` loop halves the gap `hi - lo` on every iteration,
so any fuel with `hi - lo < 2 ^ fuel` reproduces the loop exactly; the
caller passes fuel 64 for the initial gap `MAX_SHARES = 10^9 < 2^64`. -/
def csLoop (q_yes q_no b : Nat) (is_yes : Bool) (net : Nat) :
    Nat → Nat → Nat → Except Err Nat
  | 0, lo, _ => .ok lo
  | fuel + 1, lo, hi =>
    if lo < hi then
      let mid := lo + (hi - lo + 1) / 2
      match buyQuote q_yes q_no b is_yes mid with
      | .error e => .error e
      | .ok quote_res =>
        if quote_res / 1000000 ≤ net then
          csLoop q_yes q_no b is_yes net fuel mid hi
        else
          csLoop q_yes q_no b is_yes net fuel lo (mid - 1)
    else .ok lo

/-- `calculate_shares`: fee, net, then binary search for the number of
shares to mint. -/
def calculate_shares (m : MarketData) (bet_type bet_amount : Nat) :
    Except Err Nat := do
  let _ ← validate_bet_amount bet_amount
  let fee ← calculate_fee_safe bet_amount
  let net_amount ← safe_sub bet_amount fee
  let is_yes_bet ← validate_bet_type bet_type
  let lo ← csLoop m.total_yes_shares m.total_no_shares m.b is_yes_bet
    net_amount 64 0 MAX_SHARES
  let _ ← validate_shares lo
  .ok lo

/-- `calculate_sell_details`: returns `(net_payout_tokens, fee_tokens)`. -/
def calculate_sell_details (m : MarketData) (sell_type shares_to_sell : Nat) :
    Except Err (Nat × Nat) := do
  let _ ← validate_shares shares_to_sell
  let is_yes_sell ← validate_bet_type sell_type
  let gross_quote_fp ←
    if is_yes_sell then
      lmsr_sell_yes_quote m.total_yes_shares m.total_no_shares m.b
        shares_to_sell
    else
      lmsr_sell_no_quote m.total_yes_shares m.total_no_shares m.b
        shares_to_sell
  let gross_tokens := gross_quote_fp / 1000000
  if gross_tokens = 0 then .ok (0, 0)
  else
    let fee ← calculate_fee_safe gross_tokens
    let net_payout ← safe_sub gross_tokens fee
    .ok (net_payout, fee)

/-- `place_bet`, modelled as explicit state passing: the returned
`MarketData` is the record as the Rust `&mut self` leaves it (partial
updates included when an early `?` fires after a field assignment). -/
def place_bet (m : MarketData) (bet_type bet_amount : Nat) :
    MarketData × Except Err Nat :=
  match validate_bet_amount bet_amount with
  | .error e => (m, .error e)
  | .ok _ =>
  match calculate_shares m bet_type bet_amount with
  | .error e => (m, .error e)
  | .ok shares =>
  if shares = 0 then (m, .error .invalidBetAmount)
  else
  match calculate_fee_safe bet_amount with
  | .error e => (m, .error e)
  | .ok fee_tokens =>
  match safe_sub bet_amount fee_tokens with
  | .error e => (m, .error e)
  | .ok net_tokens =>
  let is_yes_bet := bet_type = 1
  match (if is_yes_bet then safe_add m.total_yes_shares shares
         else safe_add m.total_no_shares shares) with
  | .error e => (m, .error e)
  | .ok minted =>
  let m1 := if is_yes_bet then { m with total_yes_shares := minted }
            else { m with total_no_shares := minted }
  match safe_add m1.pool_balance net_tokens with
  | .error e => (m1, .error e)
  | .ok pb =>
  let m2 := { m1 with pool_balance := pb }
  match safe_add m2.total_volume bet_amount with
  | .error e => (m2, .error e)
  | .ok tv =>
  let m3 := { m2 with total_volume := tv }
  match safe_add m3.total_fees_collected fee_tokens with
  | .error e => (m3, .error e)
  | .ok tf => ({ m3 with total_fees_collected := tf }, .ok shares)

/-- `sell_shares`, with the same explicit state passing as `place_bet`. -/
def sell_shares (m : MarketData) (sell_type shares_to_sell : Nat) :
    MarketData × Except Err Nat :=
  let is_yes_sell := sell_type = 1
  let current_shares :=
    if is_yes_sell then m.total_yes_shares else m.total_no_shares
  if shares_to_sell > current_shares then (m, .error .insufficientBalance)
  else
  match calculate_sell_details m sell_type shares_to_sell with
  | .error e => (m, .error e)
  | .ok (payout_tokens, fee_tokens) =>
  if payout_tokens = 0 then (m, .error .invalidBetAmount)
  else if payout_tokens > m.pool_balance then (m, .error .insufficientBalance)
  else
  match (if is_yes_sell then safe_sub m.total_yes_shares shares_to_sell
         else safe_sub m.total_no_shares shares_to_sell) with
  | .error e => (m, .error e)
  | .ok burned =>
  let m1 := if is_yes_sell then { m with total_yes_shares := burned }
            else { m with total_no_shares := burned }
  match safe_sub m1.pool_balance payout_tokens with
  | .error e => (m1, .error e)
  | .ok pb =>
  let m2 := { m1 with pool_balance := pb }
  match safe_add m2.total_fees_collected fee_tokens with
  | .error e => (m2, .error e)
  | .ok tf =>
  let m3 := { m2 with total_fees_collected := tf }
  match safe_add payout_tokens fee_tokens with
  | .error e => (m3, .error e)
  | .ok tx_value =>
  match safe_add m3.total_volume tx_value with
  | .error e => (m3, .error e)
  | .ok tv => ({ m3 with total_volume := tv }, .ok payout_tokens)

/-- `resolve`. -/
def resolve (m : MarketData) (outcome : Bool) :
    MarketData × Except Err Unit :=
  if m.resolved then (m, .error .marketAlreadyResolved)
  else ({ m with resolved := true, outcome := some outcome }, .ok ())

/-- `calculate_payout` (pure query). -/
def calculate_payout (m : MarketData) (yes_shares no_shares : Nat) :
    Except Err Nat :=
  if !m.resolved || m.pool_balance = 0 then .ok 0
  else
    match m.outcome with
    | some true =>
      if m.total_yes_shares = 0 then .ok 0
      else safe_div_high_precision yes_shares m.pool_balance
        m.total_yes_shares
    | some false =>
      if m.total_no_shares = 0 then .ok 0
      else safe_div_high_precision no_shares m.pool_balance
        m.total_no_shares
    | none => .ok 0

/-- `withdraw_fees`. -/
def withdraw_fees (m : MarketData) (amount : Nat) :
    MarketData × Except Err Nat :=
  if amount = 0 ∨ amount > m.total_fees_collected then
    (m, .error .invalidBetAmount)
  else
    match safe_sub m.total_fees_collected amount with
    | .error e => (m, .error e)
    | .ok tf => ({ m with total_fees_collected := tf }, .ok amount)

/-- `StorageData::to_data`: serialize to 64-bit words. -/
def to_data (m : MarketData) : List Nat :=
  m.title.length :: m.title ++
    [m.start_time, m.end_time, m.resolution_time,
     m.total_yes_shares, m.total_no_shares, m.b,
     m.pool_balance, m.total_volume,
     (if m.resolved then 1 else 0),
     (match m.outcome with
      | none => 0
      | some false => 1
      | some true => 2),
     m.total_fees_collected]

/-- Read `n` words off the front of the stream (`none` models the
iterator running dry, where the Rust code would panic on `unwrap`). -/
def readN : Nat → List Nat → Option (List Nat × List Nat)
  | 0, rest => some ([], rest)
  | _ + 1, [] => none
  | n + 1, x :: rest =>
    match readN n rest with
    | none => none
    | some (ys, r) => some (x :: ys, r)

/-- `StorageData::from_data`: deserialize; returns the record and the
unconsumed remainder of the stream. -/
def from_data (data : List Nat) : Option (MarketData × List Nat) :=
  match data with
  | [] => none
  | title_len :: rest =>
    match readN title_len rest with
    | none => none
    | some (title, rest1) =>
      match rest1 with
      | st :: en :: rt :: qy :: qn :: b :: pb :: tv :: rz :: oc :: tf ::
          rest2 =>
        some ({ title := title
                start_time := st
                end_time := en
                resolution_time := rt
                total_yes_shares := qy
                total_no_shares := qn
                b := b
                pool_balance := pb
                total_volume := tv
                resolved := rz != 0
                outcome :=
                  if oc = 0 then none
                  else if oc = 1 then some false
                  else some true
                total_fees_collected := tf }, rest2)
      | _ => none

end MarketData

/-! ## Helper lemmas -/

@[simp]
theorem ok_bind {α β : Type} (a : α) (f : α → Except Err β) :
    (Except.ok a >>= f) = f a := rfl

@[simp]
theorem error_bind {α β : Type} (e : Err) (f : α → Except Err β) :
    ((Except.error e : Except Err α) >>= f) = Except.error e := rfl

theorem bind_ok_iff {α β : Type} (x : Except Err α) (f : α → Except Err β)
    (b : β) : (x >>= f) = .ok b ↔ ∃ a, x = .ok a ∧ f a = .ok b := by
  cases x <;> simp

theorem safe_add_ok {a b c : Nat} (h : safe_add a b = .ok c) :
    c = a + b ∧ a + b ≤ U64_MAX := by
  unfold safe_add at h
  split at h <;> simp_all

theorem safe_add_error {a b : Nat} {e : Err} (h : safe_add a b = .error e) :
    e = .overflow := by
  unfold safe_add at h
  split at h <;> simp_all

theorem safe_sub_ok {a b c : Nat} (h : safe_sub a b = .ok c) :
    c = a - b ∧ b ≤ a := by
  unfold safe_sub at h
  split at h <;> simp_all

theorem safe_sub_of_le {a b : Nat} (h : b ≤ a) : safe_sub a b = .ok (a - b) := by
  unfold safe_sub
  simp [h]

/-- A generic small market used as a concrete evaluation point. -/
def mkMarket (qy qn b pool vol fees : Nat) (res : Bool) (oc : Option Bool) :
    MarketData :=
  { title := [], start_time := 0, end_time := 1000, resolution_time := 1000,
    total_yes_shares := qy, total_no_shares := qn, b := b,
    pool_balance := pool, total_volume := vol, resolved := res,
    outcome := oc, total_fees_collected := fees }

/-! ## C10 -/

/-- C10: `calculate_payout` returns `Ok 0` on any unresolved market, and on
any resolved market with an empty pool, for all share arguments. -/
theorem c10_payout_zero_unresolved_or_empty (m : MarketData) (ys ns : Nat)
    (h : m.resolved = false ∨ m.pool_balance = 0) :
    m.calculate_payout ys ns = .ok 0 := by
  unfold MarketData.calculate_payout
  rcases h with h | h <;> simp [h]

/-- C10 witness: a concrete unresolved market and a concrete resolved,
empty-pool market. -/
theorem c10_witness :
    (mkMarket 1000 1000 10000 500 0 0 false none).calculate_payout 7 9 =
      .ok 0 ∧
    (mkMarket 1000 1000 10000 0 0 0 true (some true)).calculate_payout 7 9 =
      .ok 0 :=
  ⟨c10_payout_zero_unresolved_or_empty _ 7 9 (Or.inl rfl),
   c10_payout_zero_unresolved_or_empty _ 7 9 (Or.inr rfl)⟩

/-! ## C6 -/

/-- C6: whenever both LMSR price functions succeed, the YES and NO prices
sum to exactly `FP_SCALE`; consequently `get_yes_price` plus `get_no_price`
is exactly `1_000_000` whenever both succeed. -/
theorem c6_prices_sum_to_fp_scale :
    (∀ q_yes q_no b py pn : Nat,
      lmsr_price_yes q_yes q_no b = .ok py →
      lmsr_price_no q_yes q_no b = .ok pn →
      py + pn = FP_SCALE) ∧
    (∀ (m : MarketData) (a c : Nat),
      m.get_yes_price = .ok a → m.get_no_price = .ok c →
      a + c = 1000000) := by
  have base : ∀ q_yes q_no b py pn : Nat,
      lmsr_price_yes q_yes q_no b = .ok py →
      lmsr_price_no q_yes q_no b = .ok pn →
      py + pn = FP_SCALE := by
    intro q_yes q_no b py pn h1 h2
    unfold lmsr_price_no at h2
    rw [bind_ok_iff] at h2
    obtain ⟨a, ha, hsub⟩ := h2
    rw [h1] at ha
    cases ha
    unfold chkSub128 at hsub
    split at hsub <;> simp_all
    omega
  refine ⟨base, ?_⟩
  intro m a c h1 h2
  unfold MarketData.get_yes_price calculate_yes_price_lmsr at h1
  unfold MarketData.get_no_price calculate_no_price_lmsr at h2
  rw [bind_ok_iff] at h1 h2
  obtain ⟨py, hpy, h1⟩ := h1
  obtain ⟨pn, hpn, h2⟩ := h2
  have := base _ _ _ _ _ hpy hpn
  split at h1 <;> split at h2 <;> simp_all [FP_SCALE]

/-- C6 witness: the symmetric market from the test suite. -/
theorem c6_witness :
    lmsr_price_yes 1000 1000 10000 = .ok 500000 ∧
    lmsr_price_no 1000 1000 10000 = .ok 500000 ∧
    (500000 : Nat) + 500000 = FP_SCALE :=
  ⟨by decide, by decide,
   c6_prices_sum_to_fp_scale.1 1000 1000 10000 500000 500000
     (by decide) (by decide)⟩

/-! ## C7 -/

/-- C7: for `0 < amount ≤ MAX_BET_AMOUNT`, `calculate_fee_safe` returns the
exact ceiling `⌈amount · PLATFORM_FEE_RATE / FEE_BASIS_POINTS⌉` (stated via
the Galois characterization of the ceiling), and the fee is at least 1. -/
theorem c7_fee_ceiling_and_nonzero (a : Nat) (h0 : 0 < a)
    (h1 : a ≤ MAX_BET_AMOUNT) :
    ∃ f, calculate_fee_safe a = .ok f ∧
      (∀ k, a * PLATFORM_FEE_RATE ≤ k * FEE_BASIS_POINTS ↔ f ≤ k) ∧
      1 ≤ f := by
  have hmax : a ≤ 100000000 := h1
  have h128 : (2 : Nat) ^ 128 - 1 = 340282366920938463463374607431768211455 := by
    norm_num
  refine ⟨(a * 100 + 9999) / 10000, ?_, ?_, ?_⟩
  · unfold calculate_fee_safe chkMul128 chkAdd128
    simp only [MAX_BET_AMOUNT, PLATFORM_FEE_RATE, FEE_BASIS_POINTS, U128_MAX,
      U64_MAX, h128]
    have : ¬ a > 100000000 := by omega
    rw [if_neg this, if_pos (by omega)]
    simp only [ok_bind]
    rw [if_pos (by omega)]
    simp only [ok_bind]
    rw [if_neg]
    have h64 : (2 : Nat) ^ 64 - 1 = 18446744073709551615 := by norm_num
    rw [h64]
    have : (a * 100 + 9999) / 10000 ≤ a := by omega
    omega
  · intro k
    simp only [PLATFORM_FEE_RATE, FEE_BASIS_POINTS]
    omega
  · have : 10000 ≤ a * 100 + 9999 := by omega
    omega

/-- C7 witness: the fee of 1960 is exactly 20 (ceiling of 19.6) and
positive. -/
theorem c7_witness :
    ∃ f, calculate_fee_safe 1960 = .ok f ∧
      (∀ k, 1960 * PLATFORM_FEE_RATE ≤ k * FEE_BASIS_POINTS ↔ f ≤ k) ∧
      1 ≤ f :=
  c7_fee_ceiling_and_nonzero 1960 (by decide) (by decide)

/-! ## C8 -/

/-- C8 counterexample: at `(a, b, c) = (1, 0, 1)` we have `c ≠ 0` and
`⌊a·b/c⌋ = 0 ≤ u64::MAX`, yet the function returns `DIVISION_BY_ZERO`
(the source also rejects `b == 0`), not `Ok 0` as claimed. -/
theorem c8_counterexample :
    (1 : Nat) ≠ 0 ∧ 1 * 0 / 1 ≤ U64_MAX ∧
    safe_div_high_precision 1 0 1 = .error .divisionByZero := by decide

/-- C8 (amended): for `u64` inputs, `safe_div_high_precision` fails with
`DIVISION_BY_ZERO` exactly when `b = 0` or `c = 0`; when both are nonzero
it returns `Ok ⌊a·b/c⌋` if that fits in 64 bits and `OVERFLOW` otherwise. -/
theorem c8_div_high_precision_spec (a b c : Nat) (ha : a ≤ U64_MAX)
    (hb : b ≤ U64_MAX) :
    ((safe_div_high_precision a b c = .error .divisionByZero) ↔
      (b = 0 ∨ c = 0)) ∧
    (b ≠ 0 → c ≠ 0 →
      safe_div_high_precision a b c =
        (if a * b / c ≤ U64_MAX then .ok (a * b / c)
         else .error .overflow)) := by
  have hmul : a * b ≤ U128_MAX := by
    have h64 : U64_MAX = 18446744073709551615 := by norm_num [U64_MAX]
    have h128 : U128_MAX = 340282366920938463463374607431768211455 := by
      norm_num [U128_MAX]
    calc a * b ≤ U64_MAX * U64_MAX :=
          Nat.mul_le_mul ha hb
      _ ≤ U128_MAX := by rw [h64, h128]; norm_num
  constructor
  · constructor
    · intro h
      by_contra hbc
      push_neg at hbc
      unfold safe_div_high_precision chkMul128 at h
      rw [if_neg (by tauto)] at h
      rw [if_pos hmul] at h
      simp only [ok_bind] at h
      split at h <;> simp_all
    · intro h
      unfold safe_div_high_precision
      rw [if_pos h]
  · intro hb0 hc0
    unfold safe_div_high_precision chkMul128
    rw [if_neg (by tauto), if_pos hmul]
    simp only [ok_bind]
    split <;> rename_i hgt
    · rw [if_neg (by omega)]
    · rw [if_pos (by omega)]

/-- C8 witness: `(10, 20, 3)` gives `⌊200/3⌋ = 66`. -/
theorem c8_witness :
    ((safe_div_high_precision 10 20 3 = .error .divisionByZero) ↔
      ((20 : Nat) = 0 ∨ (3 : Nat) = 0)) ∧
    ((20 : Nat) ≠ 0 → (3 : Nat) ≠ 0 →
      safe_div_high_precision 10 20 3 =
        (if 10 * 20 / 3 ≤ U64_MAX then .ok (10 * 20 / 3)
         else .error .overflow)) :=
  c8_div_high_precision_spec 10 20 3 (by decide) (by decide)

/-! ## C9 -/

theorem readN_append (l r : List Nat) :
    MarketData.readN l.length (l ++ r) = some (l, r) := by
  induction l with
  | nil => rfl
  | cons x xs ih =>
    simp [MarketData.readN, ih]

/-- C9: serialization round-trips: `from_data (to_data m)` recovers `m`
exactly (with the whole stream consumed), for any market whose title fits
the reachable bound of 8 words. -/
theorem c9_serialization_roundtrip (m : MarketData)
    (htitle : m.title.length ≤ 8) :
    MarketData.from_data (MarketData.to_data m) = some (m, []) := by
  obtain ⟨title, st, en, rt, qy, qn, b, pb, tv, rz, oc, tf⟩ := m
  simp only [MarketData.to_data, MarketData.from_data, List.cons_append,
    readN_append]
  cases rz <;> rcases oc with _ | ⟨_ | _⟩ <;> simp

/-- C9 witness: a concrete resolved market with a two-word title. -/
theorem c9_witness :
    MarketData.from_data
        (MarketData.to_data
          { mkMarket 1500 1000 10000 9185 824 9 true (some false) with
              title := [77, 88] }) =
      some ({ mkMarket 1500 1000 10000 9185 824 9 true (some false) with
                title := [77, 88] }, []) :=
  c9_serialization_roundtrip _ (by decide)

/-! ## C1 -/

/-- A concrete resolved market with very deep liquidity (`b = 10^12`), on
which the solver's probes stay inside the `fp_ln` domain. -/
def resolvedDeepMarket : MarketData :=
  mkMarket 1000 1000 1000000000000 0 0 0 true (some true)

/-- C1 counterexample: on a resolved market, `place_bet` succeeds (mints
998999 shares) and mutates the record — the core does not gate `place_bet`
or `sell_shares` on `resolved`, so `resolved` is not terminal for them. -/
theorem c1_counterexample :
    resolvedDeepMarket.resolved = true ∧
    (resolvedDeepMarket.place_bet 1 1000000).2 = .ok 998999 ∧
    (resolvedDeepMarket.place_bet 1 1000000).1 ≠ resolvedDeepMarket := by
  decide

/-- C1 (amended): `resolved == true` is terminal for `resolve` only — a
second `resolve` fails with `MARKET_ALREADY_RESOLVED` and leaves every
field unchanged; `place_bet` and `sell_shares` are not gated on `resolved`
inside the core (the host's command layer is responsible for that). -/
theorem c1_resolve_terminal (m : MarketData) (o : Bool)
    (h : m.resolved = true) :
    m.resolve o = (m, .error .marketAlreadyResolved) := by
  unfold MarketData.resolve
  simp [h]

/-- C1 witness: resolving the concrete resolved market fails and is a
no-op. -/
theorem c1_witness :
    resolvedDeepMarket.resolve false =
      (resolvedDeepMarket, .error .marketAlreadyResolved) :=
  c1_resolve_terminal resolvedDeepMarket false rfl

/-! ## C2 -/

/-- A concrete market whose pool is already at `u64::MAX`, so the pool
update inside `place_bet` overflows after the share mint has been applied. -/
def fullPoolMarket : MarketData :=
  mkMarket 1000 1000 1000000000000 (2 ^ 64 - 1) 0 0 false none

/-- C2 counterexample: `place_bet` on the full-pool market fails with
`OVERFLOW`, yet the returned record differs from the input — the YES share
supply was already incremented when the pool addition failed, so failure is
not atomic. -/
theorem c2_counterexample :
    (fullPoolMarket.place_bet 1 1000000).2 = .error .overflow ∧
    (fullPoolMarket.place_bet 1 1000000).1 ≠ fullPoolMarket := by decide

/-- Any failing `place_bet` either leaves the record unchanged or fails
with `OVERFLOW` in one of the post-mutation bookkeeping additions. -/
theorem place_bet_err (m : MarketData) (bt amt : Nat) (e : Err)
    (h : (m.place_bet bt amt).2 = .error e) :
    (m.place_bet bt amt).1 = m ∨ e = .overflow := by
  unfold MarketData.place_bet at *
  rcases hv : validate_bet_amount amt with e1 | u <;>
    simp only [hv] at h ⊢
  · simp_all
  rcases hcs : m.calculate_shares bt amt with e1 | shares <;>
    simp only [hcs] at h ⊢
  · simp_all
  by_cases hsh : shares = 0
  · simp_all
  rw [if_neg hsh] at h ⊢
  rcases hfee : calculate_fee_safe amt with e1 | fee <;>
    simp only [hfee] at h ⊢
  · simp_all
  rcases hnet : safe_sub amt fee with e1 | net <;>
    simp only [hnet] at h ⊢
  · simp_all
  by_cases hbt : bt = 1 <;>
    [simp only [if_pos hbt] at h ⊢; simp only [if_neg hbt] at h ⊢] <;>
  all_goals {
    first
    | (rcases hmint : safe_add m.total_yes_shares shares with e1 | minted <;>
        simp only [hmint] at h ⊢)
    | (rcases hmint : safe_add m.total_no_shares shares with e1 | minted <;>
        simp only [hmint] at h ⊢)
    · simp_all
    all_goals {
      rcases hpool : safe_add m.pool_balance net with e1 | pb <;>
        simp only [hpool] at h ⊢
      · right
        simp only [Except.error.injEq] at h
        exact h ▸ safe_add_error hpool
      rcases hvol : safe_add m.total_volume amt with e1 | tv <;>
        simp only [hvol] at h ⊢
      · right
        simp only [Except.error.injEq] at h
        exact h ▸ safe_add_error hvol
      rcases hfc : safe_add m.total_fees_collected fee with e1 | tf <;>
        simp only [hfc] at h ⊢
      · right
        simp only [Except.error.injEq] at h
        exact h ▸ safe_add_error hfc
      · simp_all
    }
  }

/-- Any failing `sell_shares` either leaves the record unchanged or fails
with `OVERFLOW` in one of the post-mutation bookkeeping additions. -/
theorem sell_shares_err (m : MarketData) (st s : Nat) (e : Err)
    (h : (m.sell_shares st s).2 = .error e) :
    (m.sell_shares st s).1 = m ∨ e = .overflow := by
  unfold MarketData.sell_shares at *
  by_cases hst : st = 1 <;>
    [simp only [if_pos hst] at h ⊢; simp only [if_neg hst] at h ⊢] <;>
  all_goals {
    first
    | (by_cases hbal : s > m.total_yes_shares
       case pos => simp_all
       rw [if_neg hbal] at h ⊢)
    | (by_cases hbal : s > m.total_no_shares
       case pos => simp_all
       rw [if_neg hbal] at h ⊢)
    rcases hsd : m.calculate_sell_details st s with e1 | pf <;>
      simp only [hsd] at h ⊢
    · simp_all
    obtain ⟨payout, fee⟩ := pf
    by_cases hpz : payout = 0
    · simp_all
    rw [if_neg hpz] at h ⊢
    by_cases hpp : payout > m.pool_balance
    · simp_all
    rw [if_neg hpp] at h ⊢
    rw [safe_sub_of_le (Nat.not_lt.mp hbal)] at h ⊢
    dsimp only at h ⊢
    rw [safe_sub_of_le (Nat.not_lt.mp hpp)] at h ⊢
    dsimp only at h ⊢
    rcases hfc : safe_add m.total_fees_collected fee with e1 | tf <;>
      simp only [hfc] at h ⊢
    · right
      simp only [Except.error.injEq] at h
      exact h ▸ safe_add_error hfc
    rcases htx : safe_add payout fee with e1 | tx <;>
      simp only [htx] at h ⊢
    · right
      simp only [Except.error.injEq] at h
      exact h ▸ safe_add_error htx
    rcases hvol : safe_add m.total_volume tx with e1 | tv <;>
      simp only [hvol] at h ⊢
    · right
      simp only [Except.error.injEq] at h
      exact h ▸ safe_add_error hvol
    · simp_all
  }

/-- C2 (amended): every failing `place_bet` or `sell_shares` leaves the
record unchanged unless the error is `OVERFLOW` from one of the
bookkeeping additions performed after the first field update; every
non-`OVERFLOW` failure is a strict no-op. -/
theorem c2_failure_noop_except_overflow :
    (∀ (m : MarketData) (bt amt : Nat) (e : Err),
      (m.place_bet bt amt).2 = .error e →
      (m.place_bet bt amt).1 = m ∨ e = .overflow) ∧
    (∀ (m : MarketData) (st s : Nat) (e : Err),
      (m.sell_shares st s).2 = .error e →
      (m.sell_shares st s).1 = m ∨ e = .overflow) :=
  ⟨place_bet_err, sell_shares_err⟩

/-- C2 witness: a zero-amount bet fails with `INVALID_BET_AMOUNT` and the
record is untouched. -/
theorem c2_witness :
    ((mkMarket 1000 1000 10000 0 0 0 false none).place_bet 1 0).1 =
      mkMarket 1000 1000 10000 0 0 0 false none ∨
    Err.invalidBetAmount = Err.overflow :=
  c2_failure_noop_except_overflow.1 _ 1 0 .invalidBetAmount (by decide)

/-! ## C3 -/

/-- A concrete market on which a sell succeeds with a nonzero fee. -/
def sellableMarket : MarketData :=
  mkMarket 2000 1000 10000 10000 0 0 false none

/-- C3 counterexample: on the concrete market the sell of 500 YES shares
returns a payout of 815 with a fee of 9; the pool drops by the payout but
the fee vault grows by the fee, so `pool + fees` decreases by
`payout − fee = 806`, not by `payout` as claimed. -/
theorem c3_counterexample :
    (sellableMarket.sell_shares 1 500).2 = .ok 815 ∧
    (sellableMarket.sell_shares 1 500).1.pool_balance +
        (sellableMarket.sell_shares 1 500).1.total_fees_collected ≠
      sellableMarket.pool_balance + sellableMarket.total_fees_collected -
        815 := by decide

/-- Field equations of a successful `place_bet`. -/
theorem place_bet_ok_fields (m : MarketData) (bt amt : Nat)
    (m' : MarketData) (sh : Nat) (h : m.place_bet bt amt = (m', .ok sh)) :
    ∃ fee, calculate_fee_safe amt = .ok fee ∧ fee ≤ amt ∧
      m'.pool_balance = m.pool_balance + (amt - fee) ∧
      m'.total_fees_collected = m.total_fees_collected + fee ∧
      m'.total_volume = m.total_volume + amt := by
  unfold MarketData.place_bet at h
  rcases hv : validate_bet_amount amt with e1 | u <;> simp only [hv] at h
  · simp at h
  rcases hcs : m.calculate_shares bt amt with e1 | shares <;>
    simp only [hcs] at h
  · simp at h
  by_cases hsh : shares = 0
  · simp [hsh] at h
  rw [if_neg hsh] at h
  rcases hfee : calculate_fee_safe amt with e1 | fee <;>
    simp only [hfee] at h
  · simp at h
  rcases hnet : safe_sub amt fee with e1 | net <;> simp only [hnet] at h
  · simp at h
  obtain ⟨hnv, hnle⟩ := safe_sub_ok hnet
  by_cases hbt : bt = 1 <;>
    [simp only [if_pos hbt] at h; simp only [if_neg hbt] at h] <;>
  all_goals {
    first
    | (rcases hmint : safe_add m.total_yes_shares shares with e1 | minted <;>
        simp only [hmint] at h)
    | (rcases hmint : safe_add m.total_no_shares shares with e1 | minted <;>
        simp only [hmint] at h)
    · simp at h
    rcases hpool : safe_add m.pool_balance net with e1 | pb <;>
      simp only [hpool] at h
    · simp at h
    rcases hvol : safe_add m.total_volume amt with e1 | tv <;>
      simp only [hvol] at h
    · simp at h
    rcases hfc : safe_add m.total_fees_collected fee with e1 | tf <;>
      simp only [hfc] at h
    · simp at h
    rw [Prod.mk.injEq] at h
    obtain ⟨hm', hsh2⟩ := h
    obtain ⟨hpv, _⟩ := safe_add_ok hpool
    obtain ⟨htv, _⟩ := safe_add_ok hvol
    obtain ⟨hfv, _⟩ := safe_add_ok hfc
    subst hm'
    exact ⟨fee, rfl, hnle, by simp [hpv, hnv], by simp [hfv], by simp [htv]⟩
  }

/-- Field equations of a successful `sell_shares`. -/
theorem sell_shares_ok_fields (m : MarketData) (st s : Nat)
    (m' : MarketData) (p : Nat) (h : m.sell_shares st s = (m', .ok p)) :
    ∃ f, m.calculate_sell_details st s = .ok (p, f) ∧ p ≤ m.pool_balance ∧
      m'.pool_balance = m.pool_balance - p ∧
      m'.total_fees_collected = m.total_fees_collected + f := by
  unfold MarketData.sell_shares at h
  by_cases hst : st = 1 <;>
    [simp only [if_pos hst] at h; simp only [if_neg hst] at h] <;>
  all_goals {
    first
    | (by_cases hbal : s > m.total_yes_shares
       case pos => simp [hbal] at h
       rw [if_neg hbal] at h)
    | (by_cases hbal : s > m.total_no_shares
       case pos => simp [hbal] at h
       rw [if_neg hbal] at h)
    rcases hsd : m.calculate_sell_details st s with e1 | pf <;>
      simp only [hsd] at h
    · simp at h
    obtain ⟨payout, fee⟩ := pf
    by_cases hpz : payout = 0
    · simp [hpz] at h
    rw [if_neg hpz] at h
    by_cases hpp : payout > m.pool_balance
    · simp [hpp] at h
    rw [if_neg hpp] at h
    rw [safe_sub_of_le (Nat.not_lt.mp hbal)] at h
    dsimp only at h
    rw [safe_sub_of_le (Nat.not_lt.mp hpp)] at h
    dsimp only at h
    rcases hfc : safe_add m.total_fees_collected fee with e1 | tf <;>
      simp only [hfc] at h
    · simp at h
    rcases htx : safe_add payout fee with e1 | tx <;>
      simp only [htx] at h
    · simp at h
    rcases hvol : safe_add m.total_volume tx with e1 | tv <;>
      simp only [hvol] at h
    · simp at h
    rw [Prod.mk.injEq] at h
    obtain ⟨hm', hp⟩ := h
    obtain ⟨hfv, _⟩ := safe_add_ok hfc
    subst hm'
    obtain hp := Except.ok.inj hp
    subst hp
    exact ⟨fee, rfl, Nat.not_lt.mp hpp, by simp, by simp [hfv]⟩
  }

/-- C3 (amended): for every successful `place_bet(side, amt)`, the sum
`pool_balance + total_fees_collected` increases by exactly `amt`; for
every successful `sell_shares(side, s)` returning `payout` with fee `f`
(as reported by `calculate_sell_details`), the pool decreases by exactly
`payout` while the fee vault increases by exactly `f`, so the sum
decreases by `payout − f`. -/
theorem c3_trade_conservation :
    (∀ (m : MarketData) (bt amt : Nat) (m' : MarketData) (sh : Nat),
      m.place_bet bt amt = (m', .ok sh) →
      m'.pool_balance + m'.total_fees_collected =
        m.pool_balance + m.total_fees_collected + amt) ∧
    (∀ (m : MarketData) (st s : Nat) (m' : MarketData) (p : Nat),
      m.sell_shares st s = (m', .ok p) →
      ∃ f, m.calculate_sell_details st s = .ok (p, f) ∧
        p ≤ m.pool_balance ∧
        m'.pool_balance = m.pool_balance - p ∧
        m'.total_fees_collected = m.total_fees_collected + f) := by
  constructor
  · intro m bt amt m' sh h
    obtain ⟨fee, _, hle, hpool, hfees, _⟩ := place_bet_ok_fields m bt amt m' sh h
    omega
  · exact sell_shares_ok_fields

/-- C3 witness: a successful concrete buy adds exactly the bet amount to
`pool + fees`. -/
theorem c3_witness :
    ((mkMarket 1000 1000 1000000000000 0 0 0 false none).place_bet
          1 1000000).1.pool_balance +
        ((mkMarket 1000 1000 1000000000000 0 0 0 false none).place_bet
          1 1000000).1.total_fees_collected =
      (mkMarket 1000 1000 1000000000000 0 0 0 false none).pool_balance +
        (mkMarket 1000 1000 1000000000000 0 0 0 false
          none).total_fees_collected + 1000000 :=
  c3_trade_conservation.1 _ 1 1000000 _ 998999 (by decide)

/-! ## Fixed-point value lemmas (towards C4 and C5) -/

theorem chkMul128_ok {a b c : Nat} (h : chkMul128 a b = .ok c) :
    c = a * b ∧ a * b ≤ U128_MAX := by
  unfold chkMul128 at h
  split at h <;> simp_all

theorem chkMul128_of_le {a b : Nat} (h : a * b ≤ U128_MAX) :
    chkMul128 a b = .ok (a * b) := by
  unfold chkMul128
  simp [h]

theorem chkAdd128_ok {a b c : Nat} (h : chkAdd128 a b = .ok c) :
    c = a + b ∧ a + b ≤ U128_MAX := by
  unfold chkAdd128 at h
  split at h <;> simp_all

theorem chkAdd128_of_le {a b : Nat} (h : a + b ≤ U128_MAX) :
    chkAdd128 a b = .ok (a + b) := by
  unfold chkAdd128
  simp [h]

theorem chkSub128_ok {a b c : Nat} (h : chkSub128 a b = .ok c) :
    c = a - b ∧ b ≤ a := by
  unfold chkSub128 at h
  split at h <;> simp_all

theorem chkSub128_of_le {a b : Nat} (h : b ≤ a) :
    chkSub128 a b = .ok (a - b) := by
  unfold chkSub128
  simp [h]

theorem fp_mul_ok {a b c : Nat} (h : fp_mul a b = .ok c) :
    c = a * b / FP_SCALE ∧ a * b ≤ U128_MAX := by
  unfold fp_mul at h
  rw [bind_ok_iff] at h
  obtain ⟨w, hw, hc⟩ := h
  obtain ⟨rfl, hle⟩ := chkMul128_ok hw
  cases hc
  exact ⟨rfl, hle⟩

theorem fp_mul_of_le {a b : Nat} (h : a * b ≤ U128_MAX) :
    fp_mul a b = .ok (a * b / FP_SCALE) := by
  unfold fp_mul
  rw [chkMul128_of_le h]
  rfl

theorem fp_div_num (a k : Nat) (hk : 0 < k)
    (h : a * FP_SCALE ≤ U128_MAX) :
    fp_div a (k * FP_SCALE) = .ok (a / k) := by
  unfold fp_div
  rw [if_neg (by simp [FP_SCALE]; omega)]
  rw [chkMul128_of_le h]
  simp only [ok_bind, Except.ok.injEq]
  exact Nat.mul_div_mul_right a k (by simp [FP_SCALE])

theorem fp_div_num_ok {a k c : Nat} (hk : 0 < k)
    (h : fp_div a (k * FP_SCALE) = .ok c) :
    c = a / k ∧ a * FP_SCALE ≤ U128_MAX := by
  unfold fp_div at h
  rw [if_neg (by simp [FP_SCALE]; omega)] at h
  rw [bind_ok_iff] at h
  obtain ⟨w, hw, hc⟩ := h
  obtain ⟨rfl, hle⟩ := chkMul128_ok hw
  cases hc
  exact ⟨Nat.mul_div_mul_right a k (by simp [FP_SCALE]), hle⟩

/-- The value computed by a successful `fp_exp_taylor`. -/
def expVal (x : Nat) : Nat :=
  FP_SCALE + x + (x * x / FP_SCALE) / 2 +
    ((x * x / FP_SCALE) * x / FP_SCALE) / 6

theorem expVal_mono {x x' : Nat} (h : x ≤ x') : expVal x ≤ expVal x' := by
  unfold expVal
  have h2 : x * x ≤ x' * x' := Nat.mul_le_mul h h
  have hx2 : x * x / FP_SCALE ≤ x' * x' / FP_SCALE :=
    Nat.div_le_div_right h2
  have h3 : (x * x / FP_SCALE) * x ≤ (x' * x' / FP_SCALE) * x' :=
    Nat.mul_le_mul hx2 h
  have hx3 : (x * x / FP_SCALE) * x / FP_SCALE ≤
      (x' * x' / FP_SCALE) * x' / FP_SCALE := Nat.div_le_div_right h3
  have := Nat.div_le_div_right (c := 2) hx2
  have := Nat.div_le_div_right (c := 6) hx3
  omega

/-- Full inversion of a successful `fp_exp_taylor`: the value and every
range check. -/
theorem fp_exp_taylor_ok_full {x v : Nat} (h : fp_exp_taylor x = .ok v) :
    v = expVal x ∧ x * x ≤ U128_MAX ∧
    (x * x / FP_SCALE) * FP_SCALE ≤ U128_MAX ∧
    (x * x / FP_SCALE) * x ≤ U128_MAX ∧
    ((x * x / FP_SCALE) * x / FP_SCALE) * FP_SCALE ≤ U128_MAX ∧
    expVal x ≤ U128_MAX := by
  unfold fp_exp_taylor at h
  rw [bind_ok_iff] at h
  obtain ⟨x2, hx2, h⟩ := h
  rw [bind_ok_iff] at h
  obtain ⟨half, hhalf, h⟩ := h
  rw [bind_ok_iff] at h
  obtain ⟨x3, hx3, h⟩ := h
  rw [bind_ok_iff] at h
  obtain ⟨sixth, hsixth, h⟩ := h
  rw [bind_ok_iff] at h
  obtain ⟨t1, ht1, h⟩ := h
  rw [bind_ok_iff] at h
  obtain ⟨t2, ht2, h⟩ := h
  rw [bind_ok_iff] at h
  obtain ⟨sum, hv, heq⟩ := h
  simp only [Except.ok.injEq] at heq
  subst heq
  obtain ⟨hx2v, hx2c⟩ := fp_mul_ok hx2
  subst hx2v
  obtain ⟨hhv, hhc⟩ := fp_div_num_ok (by omega) hhalf
  subst hhv
  obtain ⟨hx3v, hx3c⟩ := fp_mul_ok hx3
  subst hx3v
  obtain ⟨hsv, hsc⟩ := fp_div_num_ok (by omega) hsixth
  subst hsv
  obtain ⟨ht1v, ht1c⟩ := chkAdd128_ok ht1
  subst ht1v
  obtain ⟨ht2v, ht2c⟩ := chkAdd128_ok ht2
  subst ht2v
  obtain ⟨hvv, hvc⟩ := chkAdd128_ok hv
  subst hvv
  exact ⟨rfl, hx2c, hhc, hx3c, hsc, hvc⟩

/-- Builder: the checks suffice for `fp_exp_taylor` to succeed. -/
theorem fp_exp_taylor_of_checks (x : Nat) (h1 : x * x ≤ U128_MAX)
    (h2 : (x * x / FP_SCALE) * FP_SCALE ≤ U128_MAX)
    (h3 : (x * x / FP_SCALE) * x ≤ U128_MAX)
    (h4 : ((x * x / FP_SCALE) * x / FP_SCALE) * FP_SCALE ≤ U128_MAX)
    (h5 : expVal x ≤ U128_MAX) :
    fp_exp_taylor x = .ok (expVal x) := by
  unfold fp_exp_taylor
  rw [fp_mul_of_le h1]
  simp only [ok_bind]
  rw [show (2 : Nat) * FP_SCALE = 2 * FP_SCALE from rfl]
  rw [fp_div_num _ 2 (by omega) h2]
  simp only [ok_bind]
  rw [fp_mul_of_le h3]
  simp only [ok_bind]
  rw [fp_div_num _ 6 (by omega) h4]
  simp only [ok_bind]
  unfold expVal at h5 ⊢
  simp only [FP_SCALE] at h5 ⊢
  rw [chkAdd128_of_le (by omega)]
  simp only [ok_bind]
  rw [chkAdd128_of_le (by omega)]
  simp only [ok_bind]
  rw [chkAdd128_of_le (by omega)]
  rfl

/-- `fp_exp_taylor` is downward-defined and monotone: success at `x'`
gives success below with a value bounded by `expVal`. -/
theorem fp_exp_taylor_dom_mono {x x' v' : Nat} (hle : x ≤ x')
    (h' : fp_exp_taylor x' = .ok v') :
    fp_exp_taylor x = .ok (expVal x) ∧ expVal x ≤ v' := by
  obtain ⟨hv', c1, c2, c3, c4, c5⟩ := fp_exp_taylor_ok_full h'
  subst hv'
  have m1 : x * x ≤ x' * x' := Nat.mul_le_mul hle hle
  have m2 : x * x / FP_SCALE ≤ x' * x' / FP_SCALE := Nat.div_le_div_right m1
  have m3 : (x * x / FP_SCALE) * x ≤ (x' * x' / FP_SCALE) * x' :=
    Nat.mul_le_mul m2 hle
  have m4 : (x * x / FP_SCALE) * x / FP_SCALE ≤
      (x' * x' / FP_SCALE) * x' / FP_SCALE := Nat.div_le_div_right m3
  refine ⟨fp_exp_taylor_of_checks x ?_ ?_ ?_ ?_ ?_, expVal_mono hle⟩
  · omega
  · exact le_trans (Nat.mul_le_mul_right _ m2) c2
  · omega
  · exact le_trans (Nat.mul_le_mul_right _ m4) c4
  · exact le_trans (expVal_mono hle) c5

theorem expVal_lower (x : Nat) : FP_SCALE + x ≤ expVal x := by
  unfold expVal
  simp only [FP_SCALE]
  omega

/-- The value computed by a successful `fp_ln_series` on `FP_SCALE + z`. -/
def lnVal (z : Nat) : Nat :=
  z - (z * z / FP_SCALE) / 2 + ((z * z / FP_SCALE) * z / FP_SCALE) / 3

set_option maxRecDepth 4000

/-- One unit step of `lnVal` is nondecreasing inside its domain.  The
floored quadratic term can jump by at most half its own jump when
`z²/FP_SCALE` jumps by `d ≤ 4`, and whenever it jumps by 3 or more we
have `z ≥ FP_SCALE`, which forces the cubic term to jump too. -/
theorem lnVal_step {z : Nat} (h : z + 1 ≤ 2 * FP_SCALE) :
    lnVal z ≤ lnVal (z + 1) := by
  unfold lnVal
  simp only [FP_SCALE] at *
  have hsq : (z + 1) * (z + 1) = z * z + 2 * z + 1 := by ring
  have hub : z * z ≤ 2000000 * z := Nat.mul_le_mul_right z (by omega)
  have hub' : (z + 1) * (z + 1) ≤ 2000000 * (z + 1) :=
    Nat.mul_le_mul_right (z + 1) (by omega)
  by_cases hd : (z + 1) * (z + 1) / 1000000 ≤ z * z / 1000000 + 2
  · have hp : (z * z / 1000000) * z ≤
        ((z + 1) * (z + 1) / 1000000) * (z + 1) :=
      Nat.mul_le_mul (Nat.div_le_div_right (by omega)) (by omega)
    omega
  · push_neg at hd
    have hzF : 1000000 ≤ z := by omega
    have hsqF : 1000000 * 1000000 ≤ z * z := Nat.mul_le_mul hzF hzF
    have hp2 : (z * z / 1000000 + 3) * (z + 1) ≤
        ((z + 1) * (z + 1) / 1000000) * (z + 1) :=
      Nat.mul_le_mul_right (z + 1) (by omega)
    have hexp : (z * z / 1000000 + 3) * (z + 1) =
        (z * z / 1000000) * z + (z * z / 1000000) + 3 * z + 3 := by ring
    omega

/-- `lnVal` is monotone nondecreasing on `[0, 2·FP_SCALE]`. -/
theorem lnVal_mono {z z' : Nat} (hle : z ≤ z') (h2 : z' ≤ 2 * FP_SCALE) :
    lnVal z ≤ lnVal z' := by
  revert h2
  induction z', hle using Nat.le_induction with
  | base => intro _; exact le_refl _
  | succ n hn ih =>
    intro h2
    exact le_trans (ih (by omega)) (lnVal_step h2)

/-- Full characterization of `fp_ln_series`: it succeeds exactly on
`FP_SCALE ≤ y ≤ 3·FP_SCALE` and computes `lnVal (y − FP_SCALE)`. -/
theorem fp_ln_series_ok_then {y v : Nat} (h : fp_ln_series y = .ok v) :
    FP_SCALE ≤ y ∧ y - FP_SCALE ≤ 2 * FP_SCALE ∧
      v = lnVal (y - FP_SCALE) := by
    unfold fp_ln_series at h
    split at h
    · simp_all
    rename_i hyF
    rw [bind_ok_iff] at h
    obtain ⟨z, hz, h⟩ := h
    obtain ⟨hzv, hzF⟩ := chkSub128_ok hz
    rw [bind_ok_iff] at h
    obtain ⟨z2, hz2, h⟩ := h
    obtain ⟨hz2v, hz2c⟩ := fp_mul_ok hz2
    subst hz2v
    rw [bind_ok_iff] at h
    obtain ⟨z3, hz3, h⟩ := h
    obtain ⟨hz3v, hz3c⟩ := fp_mul_ok hz3
    subst hz3v
    rw [bind_ok_iff] at h
    obtain ⟨t2, ht2, h⟩ := h
    obtain ⟨ht2v, _⟩ := fp_div_num_ok (by omega) ht2
    subst ht2v
    rw [bind_ok_iff] at h
    obtain ⟨t3, ht3, h⟩ := h
    obtain ⟨ht3v, _⟩ := fp_div_num_ok (by omega) ht3
    subst ht3v
    rw [bind_ok_iff] at h
    obtain ⟨tmp, htmp, h⟩ := h
    obtain ⟨htv, htle⟩ := chkSub128_ok htmp
    subst htv
    rw [bind_ok_iff] at h
    obtain ⟨out, hout, heq⟩ := h
    obtain ⟨hov, _⟩ := chkAdd128_ok hout
    subst hov
    simp only [Except.ok.injEq] at heq
    subst heq
    refine ⟨by omega, ?_, ?_⟩
    · rw [← hzv]
      by_contra hzbig
      push_neg at hzbig
      simp only [FP_SCALE] at htle hzbig
      have : (2 * 1000000 + 1) * z ≤ z * z :=
        Nat.mul_le_mul_right _ (by omega)
      omega
    · rw [← hzv]
      unfold lnVal
      rfl
theorem fp_ln_series_ok_of {y : Nat} (hyF : FP_SCALE ≤ y)
    (hzle : y - FP_SCALE ≤ 2 * FP_SCALE) :
    fp_ln_series y = .ok (lnVal (y - FP_SCALE)) := by
    unfold fp_ln_series
    rw [if_neg (by omega)]
    rw [chkSub128_of_le (by omega)]
    rw [ok_bind]
    set z := y - FP_SCALE with hzdef
    have hzb : z ≤ 2000000 := by
      simp only [FP_SCALE] at hzle
      omega
    have hsq : z * z ≤ 2000000 * z := Nat.mul_le_mul_right z hzb
    have hzz : z * z ≤ U128_MAX := by
      have : z * z ≤ 2000000 * 2000000 := Nat.mul_le_mul hzb hzb
      have hU : (2000000 : Nat) * 2000000 ≤ U128_MAX := by
        norm_num [U128_MAX]
      omega
    rw [fp_mul_of_le hzz]
    rw [ok_bind]
    have h3 : z * z / FP_SCALE ≤ 4000000 := by
      simp only [FP_SCALE]
      omega
    have hz2z : (z * z / FP_SCALE) * z ≤ U128_MAX := by
      have : (z * z / FP_SCALE) * z ≤ 4000000 * 2000000 :=
        Nat.mul_le_mul h3 hzb
      have hU : (4000000 : Nat) * 2000000 ≤ U128_MAX := by
        norm_num [U128_MAX]
      omega
    rw [fp_mul_of_le hz2z]
    rw [ok_bind]
    have hz2F : (z * z / FP_SCALE) * FP_SCALE ≤ U128_MAX := by
      have : (z * z / FP_SCALE) * FP_SCALE ≤ 4000000 * 1000000 :=
        Nat.mul_le_mul h3 (by norm_num [FP_SCALE])
      have hU : (4000000 : Nat) * 1000000 ≤ U128_MAX := by
        norm_num [U128_MAX]
      omega
    rw [fp_div_num _ 2 (by omega) hz2F]
    rw [ok_bind]
    have hz3F : ((z * z / FP_SCALE) * z / FP_SCALE) * FP_SCALE ≤
        U128_MAX := by
      have h1 : (z * z / FP_SCALE) * z / FP_SCALE ≤
          (z * z / FP_SCALE) * z := Nat.div_le_self _ _
      have h2 : (z * z / FP_SCALE) * z ≤ 4000000 * 2000000 :=
        Nat.mul_le_mul h3 hzb
      have : ((z * z / FP_SCALE) * z / FP_SCALE) * FP_SCALE ≤
          (4000000 * 2000000) * 1000000 :=
        Nat.mul_le_mul (le_trans h1 h2) (by norm_num [FP_SCALE])
      have hU : ((4000000 : Nat) * 2000000) * 1000000 ≤ U128_MAX := by
        norm_num [U128_MAX]
      omega
    rw [fp_div_num _ 3 (by omega) hz3F]
    rw [ok_bind]
    have ht2z : (z * z / FP_SCALE) / 2 ≤ z := by
      simp only [FP_SCALE]
      omega
    rw [chkSub128_of_le ht2z]
    rw [ok_bind]
    have hfin : z - (z * z / FP_SCALE) / 2 +
        ((z * z / FP_SCALE) * z / FP_SCALE) / 3 ≤ U128_MAX := by
      have h4 : (z * z / FP_SCALE) * z ≤ 4000000 * 2000000 :=
        Nat.mul_le_mul h3 hzb
      have ht3b : ((z * z / FP_SCALE) * z / FP_SCALE) / 3 ≤
          4000000 * 2000000 :=
        le_trans (Nat.div_le_self _ 3) (le_trans (Nat.div_le_self _ _) h4)
      have hz' : z - (z * z / FP_SCALE) / 2 ≤ 2000000 :=
        le_trans (Nat.sub_le _ _) hzb
      have hU : (2000000 : Nat) + 4000000 * 2000000 ≤ U128_MAX := by
        norm_num [U128_MAX]
      omega
    rw [chkAdd128_of_le hfin]
    unfold lnVal
    rfl

/-- Inversion of a successful `fp_exp_q_over_b`. -/
theorem expQB_ok_then {q b v : Nat} (h : fp_exp_q_over_b q b = .ok v) :
    b ≠ 0 ∧ q * FP_SCALE ≤ U128_MAX ∧
      fp_exp_taylor (q * FP_SCALE / b) = .ok v := by
  unfold fp_exp_q_over_b at h
  split at h
  · simp_all
  rename_i hb
  rw [bind_ok_iff] at h
  obtain ⟨qfp, hqfp, h⟩ := h
  obtain ⟨rfl, hc⟩ := chkMul128_ok hqfp
  exact ⟨hb, hc, h⟩

/-- `fp_exp_q_over_b` is downward-defined and monotone in `q`, with the
value bounded below by `FP_SCALE`. -/
theorem expQB_dom_mono {q q' b v' : Nat} (hle : q ≤ q')
    (h' : fp_exp_q_over_b q' b = .ok v') :
    ∃ v, fp_exp_q_over_b q b = .ok v ∧ v ≤ v' ∧ FP_SCALE ≤ v := by
  obtain ⟨hb, hc', hexp'⟩ := expQB_ok_then h'
  have hcle : q * FP_SCALE ≤ q' * FP_SCALE := Nat.mul_le_mul_right _ hle
  have hxle : q * FP_SCALE / b ≤ q' * FP_SCALE / b := Nat.div_le_div_right hcle
  obtain ⟨hok, hmono⟩ := fp_exp_taylor_dom_mono hxle hexp'
  refine ⟨expVal (q * FP_SCALE / b), ?_, hmono, ?_⟩
  · unfold fp_exp_q_over_b
    rw [if_neg hb]
    rw [chkMul128_of_le (le_trans hcle hc')]
    rw [ok_bind]
    exact hok
  · exact le_trans (Nat.le_add_right FP_SCALE _)
      (expVal_lower (q * FP_SCALE / b))

/-- Inversion of a successful `lmsr_cost`. -/
theorem lmsr_cost_ok_then {qy qn b c : Nat} (h : lmsr_cost qy qn b = .ok c) :
    ∃ ey en, fp_exp_q_over_b qy b = .ok ey ∧ fp_exp_q_over_b qn b = .ok en ∧
      ey + en ≤ U128_MAX ∧ FP_SCALE ≤ ey + en ∧
      ey + en - FP_SCALE ≤ 2 * FP_SCALE ∧
      b * lnVal (ey + en - FP_SCALE) ≤ U128_MAX ∧
      c = b * lnVal (ey + en - FP_SCALE) := by
  unfold lmsr_cost at h
  rw [bind_ok_iff] at h
  obtain ⟨ey, hey, h⟩ := h
  rw [bind_ok_iff] at h
  obtain ⟨en, hen, h⟩ := h
  rw [bind_ok_iff] at h
  obtain ⟨sum, hsum, h⟩ := h
  obtain ⟨rfl, hsc⟩ := chkAdd128_ok hsum
  rw [bind_ok_iff] at h
  obtain ⟨lnv, hlnv, h⟩ := h
  obtain ⟨hF, h2F, rfl⟩ := fp_ln_series_ok_then hlnv
  rw [bind_ok_iff] at h
  obtain ⟨r, hr, heq⟩ := h
  obtain ⟨rfl, hrc⟩ := chkMul128_ok hr
  simp only [Except.ok.injEq] at heq
  subst heq
  exact ⟨ey, en, hey, hen, hsc, hF, h2F, hrc, rfl⟩

/-- Builder for `lmsr_cost` from its pieces. -/
theorem lmsr_cost_ok_of {qy qn b ey en : Nat}
    (hey : fp_exp_q_over_b qy b = .ok ey)
    (hen : fp_exp_q_over_b qn b = .ok en)
    (hsc : ey + en ≤ U128_MAX) (hF : FP_SCALE ≤ ey + en)
    (h2F : ey + en - FP_SCALE ≤ 2 * FP_SCALE)
    (hrc : b * lnVal (ey + en - FP_SCALE) ≤ U128_MAX) :
    lmsr_cost qy qn b = .ok (b * lnVal (ey + en - FP_SCALE)) := by
  unfold lmsr_cost
  rw [hey, ok_bind, hen, ok_bind, chkAdd128_of_le hsc, ok_bind,
    fp_ln_series_ok_of hF h2F, ok_bind, chkMul128_of_le hrc, ok_bind]

/-- `lmsr_cost` is downward-defined and monotone in its first argument. -/
theorem lmsr_cost_dom_mono {q q' qn b c' : Nat} (hle : q ≤ q')
    (h' : lmsr_cost q' qn b = .ok c') :
    ∃ c, lmsr_cost q qn b = .ok c ∧ c ≤ c' := by
  obtain ⟨ey', en, hey', hen, hsc', hF', h2F', hrc', rfl⟩ :=
    lmsr_cost_ok_then h'
  obtain ⟨ey, hey, heyle, heyF⟩ := expQB_dom_mono hle hey'
  have hsum_le : ey + en ≤ ey' + en := by omega
  have hln_le : lnVal (ey + en - FP_SCALE) ≤ lnVal (ey' + en - FP_SCALE) :=
    lnVal_mono (by omega) h2F'
  refine ⟨b * lnVal (ey + en - FP_SCALE),
    lmsr_cost_ok_of hey hen (by omega) (by omega) (by omega)
      (le_trans (Nat.mul_le_mul_left b hln_le) hrc'),
    Nat.mul_le_mul_left b hln_le⟩

/-- `lmsr_cost` is downward-defined and monotone in its second argument. -/
theorem lmsr_cost_dom_mono_snd {qy q q' b c' : Nat} (hle : q ≤ q')
    (h' : lmsr_cost qy q' b = .ok c') :
    ∃ c, lmsr_cost qy q b = .ok c ∧ c ≤ c' := by
  obtain ⟨ey, en', hey, hen', hsc', hF', h2F', hrc', rfl⟩ :=
    lmsr_cost_ok_then h'
  obtain ⟨en, hen, henle, henF⟩ := expQB_dom_mono hle hen'
  have hln_le : lnVal (ey + en - FP_SCALE) ≤ lnVal (ey + en' - FP_SCALE) :=
    lnVal_mono (by omega) h2F'
  refine ⟨b * lnVal (ey + en - FP_SCALE),
    lmsr_cost_ok_of hey hen (by omega) (by omega) (by omega)
      (le_trans (Nat.mul_le_mul_left b hln_le) hrc'),
    Nat.mul_le_mul_left b hln_le⟩

theorem safe_add_of_le {a b : Nat} (h : a + b ≤ U64_MAX) :
    safe_add a b = .ok (a + b) := by
  unfold safe_add
  simp [h]

/-- `lmsr_buy_yes_quote` is downward-defined and monotone in `Δ`. -/
theorem lmsr_buy_yes_quote_dom_mono {qy qn b d d' v' : Nat} (hle : d ≤ d')
    (h' : lmsr_buy_yes_quote qy qn b d' = .ok v') :
    ∃ v, lmsr_buy_yes_quote qy qn b d = .ok v ∧ v ≤ v' := by
  unfold lmsr_buy_yes_quote at h' ⊢
  rw [bind_ok_iff] at h'
  obtain ⟨c0, hc0, h'⟩ := h'
  rw [bind_ok_iff] at h'
  obtain ⟨s', hs', h'⟩ := h'
  obtain ⟨hsv, hslim⟩ := safe_add_ok hs'
  subst hsv
  rw [bind_ok_iff] at h'
  obtain ⟨c1', hc1', h'⟩ := h'
  obtain ⟨hvv, hvc⟩ := chkSub128_ok h'
  subst hvv
  obtain ⟨c1, hc1, hc1le⟩ := lmsr_cost_dom_mono
    (show qy + d ≤ qy + d' by omega) hc1'
  obtain ⟨c0b, hc0b, hc0le⟩ := lmsr_cost_dom_mono
    (show qy ≤ qy + d by omega) hc1
  rw [hc0] at hc0b
  obtain hc0eq := Except.ok.inj hc0b
  subst hc0eq
  refine ⟨c1 - c0, ?_, by omega⟩
  rw [hc0, ok_bind, safe_add_of_le (by omega), ok_bind, hc1, ok_bind,
    chkSub128_of_le (by omega)]

/-- `lmsr_buy_no_quote` is downward-defined and monotone in `Δ`. -/
theorem lmsr_buy_no_quote_dom_mono {qy qn b d d' v' : Nat} (hle : d ≤ d')
    (h' : lmsr_buy_no_quote qy qn b d' = .ok v') :
    ∃ v, lmsr_buy_no_quote qy qn b d = .ok v ∧ v ≤ v' := by
  unfold lmsr_buy_no_quote at h' ⊢
  rw [bind_ok_iff] at h'
  obtain ⟨c0, hc0, h'⟩ := h'
  rw [bind_ok_iff] at h'
  obtain ⟨s', hs', h'⟩ := h'
  obtain ⟨hsv, hslim⟩ := safe_add_ok hs'
  subst hsv
  rw [bind_ok_iff] at h'
  obtain ⟨c1', hc1', h'⟩ := h'
  obtain ⟨hvv, hvc⟩ := chkSub128_ok h'
  subst hvv
  obtain ⟨c1, hc1, hc1le⟩ := lmsr_cost_dom_mono_snd
    (show qn + d ≤ qn + d' by omega) hc1'
  obtain ⟨c0b, hc0b, hc0le⟩ := lmsr_cost_dom_mono_snd
    (show qn ≤ qn + d by omega) hc1
  rw [hc0] at hc0b
  obtain hc0eq := Except.ok.inj hc0b
  subst hc0eq
  refine ⟨c1 - c0, ?_, by omega⟩
  rw [hc0, ok_bind, safe_add_of_le (by omega), ok_bind, hc1, ok_bind,
    chkSub128_of_le (by omega)]

/-! ## C5 -/

/-- C5 counterexample: with `(q_yes, q_no, b) = (0, 0, 10^7)` the coarse
fixed-point floor `⌊q·FP_SCALE/b⌋` does not move between `Δ = 1` and
`Δ = 2`, so both quotes succeed with the same value 0 — the buy quote is
not strictly monotone. -/
theorem c5_counterexample :
    (1 : Nat) < 2 ∧ lmsr_buy_yes_quote 0 0 10000000 1 = .ok 0 ∧
      lmsr_buy_yes_quote 0 0 10000000 2 = .ok 0 := by decide

/-- C5 (amended): for fixed state, the buy quotes are monotone
nondecreasing in the share delta whenever they succeed: `d1 ≤ d2` with
both quotes defined gives `quote d1 ≤ quote d2` (equality is possible, so
strict monotonicity fails, but the solver only needs this direction). -/
theorem c5_buy_quote_nondecreasing :
    (∀ q_yes q_no b d1 d2 v1 v2 : Nat, d1 ≤ d2 →
      lmsr_buy_yes_quote q_yes q_no b d1 = .ok v1 →
      lmsr_buy_yes_quote q_yes q_no b d2 = .ok v2 → v1 ≤ v2) ∧
    (∀ q_yes q_no b d1 d2 v1 v2 : Nat, d1 ≤ d2 →
      lmsr_buy_no_quote q_yes q_no b d1 = .ok v1 →
      lmsr_buy_no_quote q_yes q_no b d2 = .ok v2 → v1 ≤ v2) := by
  constructor
  · intro q_yes q_no b d1 d2 v1 v2 hle h1 h2
    obtain ⟨v, hv, hvle⟩ := lmsr_buy_yes_quote_dom_mono hle h2
    rw [h1] at hv
    obtain rfl := Except.ok.inj hv
    exact hvle
  · intro q_yes q_no b d1 d2 v1 v2 hle h1 h2
    obtain ⟨v, hv, hvle⟩ := lmsr_buy_no_quote_dom_mono hle h2
    rw [h1] at hv
    obtain rfl := Except.ok.inj hv
    exact hvle

/-- C5 witness: concrete quotes on the deep market are ordered. -/
theorem c5_witness :
    lmsr_buy_yes_quote 1000 1000 1000000000000 999000 = .ok 1000000000000 ∧
    lmsr_buy_yes_quote 1000 1000 1000000000000 1000000000 =
      .ok 1001000000000000 ∧
    (1000000000000 : Nat) ≤ 1001000000000000 :=
  ⟨by decide, by decide,
   c5_buy_quote_nondecreasing.1 1000 1000 1000000000000 999000 1000000000
     1000000000000 1001000000000000 (by decide) (by decide) (by decide)⟩

/-! ## C4 -/

/-- `buyQuote` is downward-defined and monotone in `Δ` for either side. -/
theorem buyQuote_dom_mono {qy qn b d d' v' : Nat} {iy : Bool} (hle : d ≤ d')
    (h' : MarketData.buyQuote qy qn b iy d' = .ok v') :
    ∃ v, MarketData.buyQuote qy qn b iy d = .ok v ∧ v ≤ v' := by
  cases iy <;> simp only [MarketData.buyQuote] at h' ⊢
  · exact lmsr_buy_no_quote_dom_mono hle h'
  · exact lmsr_buy_yes_quote_dom_mono hle h'

theorem buyQuote_false (qy qn b d : Nat) :
    MarketData.buyQuote qy qn b false d = lmsr_buy_no_quote qy qn b d := rfl

theorem buyQuote_true (qy qn b d : Nat) :
    MarketData.buyQuote qy qn b true d = lmsr_buy_yes_quote qy qn b d := rfl

/-- When any quote succeeds, the quote at `Δ = 0` is 0. -/
theorem buyQuote_zero {qy qn b d' v' : Nat} {iy : Bool}
    (h' : MarketData.buyQuote qy qn b iy d' = .ok v') :
    MarketData.buyQuote qy qn b iy 0 = .ok 0 := by
  cases iy <;>
    [(rw [buyQuote_false] at h' ⊢
      unfold lmsr_buy_no_quote at h' ⊢);
     (rw [buyQuote_true] at h' ⊢
      unfold lmsr_buy_yes_quote at h' ⊢)] <;>
  · rw [bind_ok_iff] at h'
    obtain ⟨c0, hc0, h'⟩ := h'
    rw [bind_ok_iff] at h'
    obtain ⟨s', hs', h'⟩ := h'
    obtain ⟨_, hslim⟩ := safe_add_ok hs'
    rw [hc0, ok_bind, safe_add_of_le (by omega), Nat.add_zero, ok_bind,
      hc0, ok_bind, chkSub128_of_le (le_refl c0)]
    simp

/-- The predicate the solver searches on: the quote at `Δ = d` succeeds
and its floor in tokens does not exceed `net`. -/
def quoteLE (qy qn b : Nat) (iy : Bool) (net d : Nat) : Bool :=
  match MarketData.buyQuote qy qn b iy d with
  | .ok v => decide (v / 1000000 ≤ net)
  | .error _ => false

/-- `quoteLE` is downward-closed in `Δ`. -/
theorem quoteLE_downward {qy qn b net d d' : Nat} {iy : Bool} (hle : d ≤ d')
    (h' : quoteLE qy qn b iy net d' = true) :
    quoteLE qy qn b iy net d = true := by
  unfold quoteLE at h' ⊢
  rcases hq' : MarketData.buyQuote qy qn b iy d' with e | v' <;>
    rw [hq'] at h'
  · simp at h'
  obtain ⟨v, hv, hvle⟩ := buyQuote_dom_mono hle hq'
  rw [hv]
  simp only [decide_eq_true_eq] at h' ⊢
  exact le_trans (Nat.div_le_div_right hvle) h'

set_option maxRecDepth 2000

theorem csLoop_zero (qy qn b net : Nat) (iy : Bool) (lo hi : Nat) :
    MarketData.csLoop qy qn b iy net 0 lo hi = .ok lo := rfl

theorem csLoop_stop (qy qn b net : Nat) (iy : Bool) (fuel lo hi : Nat)
    (h : ¬ lo < hi) :
    MarketData.csLoop qy qn b iy net (fuel + 1) lo hi = .ok lo := by
  rw [MarketData.csLoop]
  rw [if_neg h]

theorem csLoop_succ (qy qn b net : Nat) (iy : Bool) (fuel lo hi : Nat)
    (h : lo < hi) :
    MarketData.csLoop qy qn b iy net (fuel + 1) lo hi =
      match MarketData.buyQuote qy qn b iy (lo + (hi - lo + 1) / 2) with
      | .error e => .error e
      | .ok q =>
        if q / 1000000 ≤ net then
          MarketData.csLoop qy qn b iy net fuel (lo + (hi - lo + 1) / 2) hi
        else
          MarketData.csLoop qy qn b iy net fuel lo
            (lo + (hi - lo + 1) / 2 - 1) := by
  rw [MarketData.csLoop]
  rw [if_pos h]

/-- Correctness of the binary-search loop: with enough fuel, a seed that
satisfies the predicate, and everything above `hi` refuted, the loop
returns the greatest index in `[lo, hi]` satisfying `quoteLE`. -/
theorem csLoop_invariant (qy qn b net : Nat) (iy : Bool) :
    ∀ (fuel lo hi : Nat), hi - lo < 2 ^ fuel → lo ≤ hi →
    hi ≤ MAX_SHARES →
    (∀ d, d ≤ MAX_SHARES → ∃ v, MarketData.buyQuote qy qn b iy d = .ok v) →
    quoteLE qy qn b iy net lo = true →
    (∀ d, hi < d → d ≤ MAX_SHARES → quoteLE qy qn b iy net d = false) →
    ∃ r, MarketData.csLoop qy qn b iy net fuel lo hi = .ok r ∧
      lo ≤ r ∧ r ≤ hi ∧ quoteLE qy qn b iy net r = true ∧
      (∀ d, r < d → d ≤ MAX_SHARES → quoteLE qy qn b iy net d = false)
  | 0, lo, hi => by
    intro hgap hlh hhi _ hlo hex
    have : lo = hi := by
      have : (2 : Nat) ^ 0 = 1 := by norm_num
      omega
    subst this
    exact ⟨lo, rfl, le_refl _, le_refl _, hlo, hex⟩
  | fuel + 1, lo, hi => by
    intro hgap hlh hhi HQ hlo hex
    by_cases hlex : lo < hi
    · have hpow : (2 : Nat) ^ (fuel + 1) = 2 ^ fuel * 2 := pow_succ 2 fuel
      rw [csLoop_succ qy qn b net iy fuel lo hi hlex]
      set mid := lo + (hi - lo + 1) / 2 with hmid
      have hmid1 : lo < mid := by omega
      have hmid2 : mid ≤ hi := by omega
      obtain ⟨v, hv⟩ := HQ mid (le_trans hmid2 hhi)
      rw [hv]
      dsimp only
      by_cases hvle : v / 1000000 ≤ net
      · have hPmid : quoteLE qy qn b iy net mid = true := by
          unfold quoteLE
          rw [hv]
          simpa using hvle
        obtain ⟨r, hrun, hr1, hr2, hr3, hr4⟩ :=
          csLoop_invariant qy qn b net iy fuel mid hi
            (by omega) hmid2 hhi HQ hPmid hex
        refine ⟨r, ?_, le_trans (le_of_lt hmid1) hr1, hr2, hr3, hr4⟩
        rw [if_pos hvle]
        exact hrun
      · have hexnew : ∀ d, mid - 1 < d → d ≤ MAX_SHARES →
            quoteLE qy qn b iy net d = false := by
          intro d hd1 hd2
          by_cases hdh : hi < d
          · exact hex d hdh hd2
          · by_contra hcon
            rw [Bool.not_eq_false] at hcon
            have := quoteLE_downward (show mid ≤ d by omega) hcon
            unfold quoteLE at this
            rw [hv] at this
            simp only [decide_eq_true_eq] at this
            exact hvle this
        obtain ⟨r, hrun, hr1, hr2, hr3, hr4⟩ :=
          csLoop_invariant qy qn b net iy fuel lo (mid - 1)
            (by omega) (by omega) (by omega) HQ hlo hexnew
        refine ⟨r, ?_, hr1, by omega, hr3, hr4⟩
        rw [if_neg hvle]
        exact hrun
    · have : lo = hi := by omega
      subst this
      exact ⟨lo, csLoop_stop qy qn b net iy fuel lo lo hlex,
        le_refl _, le_refl _, hlo, hex⟩

theorem calculate_fee_safe_eq (a : Nat) (h : a ≤ MAX_BET_AMOUNT) :
    calculate_fee_safe a =
      .ok ((a * PLATFORM_FEE_RATE + (FEE_BASIS_POINTS - 1)) /
        FEE_BASIS_POINTS) := by
  unfold calculate_fee_safe
  rw [if_neg (by omega)]
  have hU : a * PLATFORM_FEE_RATE ≤ U128_MAX := by
    simp only [MAX_BET_AMOUNT] at h
    simp only [PLATFORM_FEE_RATE]
    have : a * 100 ≤ 100000000 * 100 := Nat.mul_le_mul_right 100 h
    have hU2 : (100000000 : Nat) * 100 ≤ U128_MAX := by norm_num [U128_MAX]
    omega
  rw [chkMul128_of_le hU, ok_bind]
  rw [chkAdd128_of_le (by
    simp only [MAX_BET_AMOUNT] at h
    simp only [PLATFORM_FEE_RATE, FEE_BASIS_POINTS]
    have : a * 100 ≤ 100000000 * 100 := Nat.mul_le_mul_right 100 h
    have hU2 : (100000000 : Nat) * 100 + 9999 ≤ U128_MAX := by
      norm_num [U128_MAX]
    omega), ok_bind]
  rw [if_neg (by
    simp only [MAX_BET_AMOUNT] at h
    simp only [PLATFORM_FEE_RATE, FEE_BASIS_POINTS, U64_MAX]
    have : a * 100 ≤ 100000000 * 100 := Nat.mul_le_mul_right 100 h
    have : (a * 100 + 9999) / 10000 ≤ a * 100 + 9999 := Nat.div_le_self _ _
    have hU2 : (100000000 : Nat) * 100 + 9999 ≤ 2 ^ 64 - 1 := by norm_num
    omega)]

theorem fee_le_amt {a : Nat} (h0 : 0 < a) :
    (a * PLATFORM_FEE_RATE + (FEE_BASIS_POINTS - 1)) / FEE_BASIS_POINTS ≤
      a := by
  simp only [PLATFORM_FEE_RATE, FEE_BASIS_POINTS]
  omega

/-- C4 (amended): for a valid side and `0 < amt ≤ MAX_BET_AMOUNT`, and
provided the buy quote is defined at `MAX_SHARES` (hence, by domain
monotonicity, on the whole search range), `calculate_shares` returns the
largest `Δ ∈ [0, MAX_SHARES]` whose quote floor-divided by `FP_SCALE`
does not exceed `net = amt − fee` when that largest `Δ` is positive, and
`INVALID_BET_AMOUNT` when it is 0. -/
theorem c4_solver_returns_largest (m : MarketData) (iy : Bool) (amt : Nat)
    (h0 : 0 < amt) (hmax : amt ≤ MAX_BET_AMOUNT)
    (HQ : ∃ vM, MarketData.buyQuote m.total_yes_shares m.total_no_shares
      m.b iy MAX_SHARES = .ok vM) :
    ∃ fee, calculate_fee_safe amt = .ok fee ∧
      ((∃ best, 0 < best ∧ best ≤ MAX_SHARES ∧
          quoteLE m.total_yes_shares m.total_no_shares m.b iy
            (amt - fee) best = true ∧
          (∀ d, best < d → d ≤ MAX_SHARES →
            quoteLE m.total_yes_shares m.total_no_shares m.b iy
              (amt - fee) d = false) ∧
          m.calculate_shares (if iy then 1 else 0) amt = .ok best) ∨
       ((∀ d, 0 < d → d ≤ MAX_SHARES →
          quoteLE m.total_yes_shares m.total_no_shares m.b iy
            (amt - fee) d = false) ∧
        m.calculate_shares (if iy then 1 else 0) amt =
          .error .invalidBetAmount)) := by
  obtain ⟨vM, hvM⟩ := HQ
  have hfee := calculate_fee_safe_eq amt hmax
  set fee := (amt * PLATFORM_FEE_RATE + (FEE_BASIS_POINTS - 1)) /
    FEE_BASIS_POINTS with hfdef
  have hfle : fee ≤ amt := fee_le_amt h0
  refine ⟨fee, hfee, ?_⟩
  have HQall : ∀ d, d ≤ MAX_SHARES →
      ∃ v, MarketData.buyQuote m.total_yes_shares m.total_no_shares m.b iy
        d = .ok v := by
    intro d hd
    obtain ⟨v, hv, _⟩ := buyQuote_dom_mono hd hvM
    exact ⟨v, hv⟩
  have hP0 : quoteLE m.total_yes_shares m.total_no_shares m.b iy
      (amt - fee) 0 = true := by
    unfold quoteLE
    rw [buyQuote_zero hvM]
    simp
  have hexM : ∀ d, MAX_SHARES < d → d ≤ MAX_SHARES →
      quoteLE m.total_yes_shares m.total_no_shares m.b iy
        (amt - fee) d = false := by
    intro d h1 h2
    omega
  obtain ⟨r, hrun, hr0, hrM, hrP, hrex⟩ :=
    csLoop_invariant m.total_yes_shares m.total_no_shares m.b (amt - fee)
      iy 64 0 MAX_SHARES (by norm_num [MAX_SHARES]) (by omega)
      (le_refl _) HQall hP0 hexM
  unfold MarketData.calculate_shares
  have hval : validate_bet_amount amt = .ok () := by
    unfold validate_bet_amount
    rw [if_neg (by omega), if_neg (by omega)]
  have hvt : MarketData.validate_bet_type (if iy then 1 else 0) = .ok iy := by
    cases iy <;> rfl
  rw [hval, ok_bind, hfee, ok_bind, safe_sub_of_le hfle, ok_bind, hvt,
    ok_bind, hrun, ok_bind]
  by_cases hrz : r = 0
  · subst hrz
    refine Or.inr ⟨fun d hd0 hdM => hrex d (by omega) hdM, ?_⟩
    rfl
  · refine Or.inl ⟨r, by omega, hrM, hrP, hrex, ?_⟩
    unfold validate_shares
    rw [if_neg hrz, if_neg (by omega), ok_bind]

/-- The state for the C4 counterexample: with `b = FP_SCALE` and no
outstanding shares, the probe at `Δ = 5·10^8` leaves the `fp_ln` domain. -/
def c4cexMarket : MarketData := mkMarket 0 0 1000000 0 0 0 false none

/-- C4 counterexample: on `c4cexMarket` the bet `(YES, 10^6)` makes
`calculate_shares` fail with `UNDERFLOW` (the first binary-search probe at
`Δ = 5·10^8` overflows the `fp_ln` domain), although a positive `Δ = 1`
has a well-defined quote of 1 token, far below `net = 990000` — so the
claimed "largest Δ" exists and is positive, yet the function returns
neither it nor `INVALID_BET_AMOUNT`. -/
theorem c4_counterexample :
    c4cexMarket.calculate_shares 1 1000000 = .error .underflow ∧
    lmsr_buy_yes_quote 0 0 1000000 1 = .ok 1000000 ∧
    (1000000 : Nat) / 1000000 ≤ 1000000 - 10000 := by decide

/-- The state for the C4 witness: deep liquidity keeps every quote on
`[0, MAX_SHARES]` inside the domain. -/
def c4wMarket : MarketData := mkMarket 1000 1000 1000000000000 0 0 0 false none

/-- C4 witness: the amended solver theorem applied at a concrete deep
market and bet amount `10^6`. -/
theorem c4_witness :
    ∃ fee, calculate_fee_safe 1000000 = .ok fee ∧
      ((∃ best, 0 < best ∧ best ≤ MAX_SHARES ∧
          quoteLE c4wMarket.total_yes_shares c4wMarket.total_no_shares
            c4wMarket.b true (1000000 - fee) best = true ∧
          (∀ d, best < d → d ≤ MAX_SHARES →
            quoteLE c4wMarket.total_yes_shares c4wMarket.total_no_shares
              c4wMarket.b true (1000000 - fee) d = false) ∧
          c4wMarket.calculate_shares (if true then 1 else 0) 1000000 =
            .ok best) ∨
       ((∀ d, 0 < d → d ≤ MAX_SHARES →
          quoteLE c4wMarket.total_yes_shares c4wMarket.total_no_shares
            c4wMarket.b true (1000000 - fee) d = false) ∧
        c4wMarket.calculate_shares (if true then 1 else 0) 1000000 =
          .error .invalidBetAmount)) :=
  c4_solver_returns_largest c4wMarket true 1000000 (by decide) (by decide)
    ⟨1001000000000000, by decide⟩

end PredMarket
